import Mathlib

/-!
Verification of the oh-my-shell command interpreter (src/Problem_1/src/main.rs).

The Rust source is shallowly embedded: strings become `List Char`, the
parser's string operations (`trim`, `split('|')`, `split_whitespace`) are
modelled by executable Lean functions with the same semantics, and a call to
`eprintln!` is modelled by returning the emitted message alongside the value.
The process-orchestration code (`run_single_command`, `handle_pipes`) is
modelled by explicit state passing: the state records which stream is
installed on standard input / standard output of a child, which pipe file
descriptors the parent still holds open, which children were created, and
which fork calls failed.
-/

set_option maxHeartbeats 1000000

namespace OhMyShell

/-- Whitespace test used by tokenisation, mirroring Rust's `char::is_whitespace`
on the ASCII whitespace this shell ever sees. -/
def ws (c : Char) : Bool := c.isWhitespace

/-- Split a character list at every separator satisfying `p`, keeping empty
segments, mirroring Rust's `str::split`. -/
def splitP (p : Char → Bool) : List Char → List (List Char)
  | [] => [[]]
  | c :: cs =>
    if p c then [] :: splitP p cs
    else
      match splitP p cs with
      | [] => [[c]]
      | seg :: rest => (c :: seg) :: rest

/-- Whitespace tokenisation, mirroring Rust's `str::split_whitespace`:
split at whitespace and drop the empty segments. -/
def tokenize (s : List Char) : List (List Char) :=
  (splitP ws s).filter (fun t => !t.isEmpty)

/-- Trim leading and trailing whitespace, mirroring Rust's `str::trim`. -/
def trim (s : List Char) : List Char :=
  ((s.dropWhile ws).reverse.dropWhile ws).reverse

/-- The `Command` struct of main.rs: program name, arguments, and the optional
redirection paths recognised inside the segment. -/
structure Command where
  program : List Char
  args : List (List Char)
  input_file : Option (List Char)
  output_file : Option (List Char)
deriving DecidableEq, Repr

/-- The `InputType` enum of main.rs. -/
inductive InputType where
  | SingleCommand (cmd : Command)
  | Pipe (cmds : List Command)
  | InputRedirect (cmd : Command) (path : List Char)
  | OutputRedirect (cmd : Command) (path : List Char)
  | BiRedirect (cmd : Command) (inPath outPath : List Char)
deriving DecidableEq, Repr

/-- The message `parse_redir_command` prints on a dangling input redirection. -/
def err_no_input_msg : List Char := "Syntax error: no input file after '<'".data

/-- The message `parse_redir_command` prints on a dangling output redirection. -/
def err_no_output_msg : List Char := "Syntax error: no output file after '>'".data

/-- The token walk of `parse_redir_command` (main.rs lines 42-80): `<` consumes
the next token as the input file, `>` consumes the next token as the output
file, the first other token is the program, later ones are arguments.  A
dangling operator aborts with a syntax-error message; an empty program at the
end yields no command.  The second component is the list of stderr messages. -/
def walkTokens : List Char → List (List Char) → Option (List Char) → Option (List Char) →
    List (List Char) → Option Command × List (List Char)
  | prog, args, inf, outf, [] =>
    if prog = [] then (none, []) else (some ⟨prog, args, inf, outf⟩, [])
  | prog, args, inf, outf, t :: ts =>
    if t = ['<'] then
      match ts with
      | [] => (none, [err_no_input_msg])
      | f :: rest => walkTokens prog args (some f) outf rest
    else if t = ['>'] then
      match ts with
      | [] => (none, [err_no_output_msg])
      | f :: rest => walkTokens prog args inf (some f) rest
    else if prog = [] then walkTokens t args inf outf ts
    else walkTokens prog (args ++ [t]) inf outf ts

/-- The function `parse_redir_command` of main.rs (lines 30-88): tokenize the
trimmed segment and run the token walk.  The second component is the list of
stderr messages emitted. -/
def parse_redir_command (input : List Char) : Option Command × List (List Char) :=
  let tokens := tokenize (trim input)
  if tokens = [] then (none, [])
  else walkTokens [] [] none none tokens

/-- The segment loop of `parse_input` for a multi-segment pipeline
(main.rs lines 124-131): parse each segment, aborting at the first failure,
as the `?` operator does. -/
def parsePipeSegs : List (List Char) → Option (List Command) × List (List Char)
  | [] => (some [], [])
  | seg :: rest =>
    match parse_redir_command seg with
    | (none, m) => (none, m)
    | (some c, m) =>
      match parsePipeSegs rest with
      | (none, m2) => (none, m ++ m2)
      | (some cs, m2) => (some (c :: cs), m ++ m2)

/-- The segment list `parse_input` builds from a line (main.rs line 98):
split the trimmed line on the pipe character, trim each piece, and discard
the empty pieces. -/
def pipeline_segments (input0 : List Char) : List (List Char) :=
  ((splitP (fun c => c = '|') (trim input0)).map trim).filter (fun s => !s.isEmpty)

/-- The function `parse_input` of main.rs (lines 90-136): trim, split on `|`
discarding empty trimmed segments, then either classify the single segment by
its redirections or build a `Pipe` of all segments.  The second component is
the list of stderr messages emitted. -/
def parse_input (input0 : List Char) : Option InputType × List (List Char) :=
  let input := trim input0
  if input = [] then (none, [])
  else
    let pipeline := ((splitP (fun c => c = '|') input).map trim).filter (fun s => !s.isEmpty)
    match pipeline with
    | [] => (none, [])
    | [seg] =>
      match parse_redir_command seg with
      | (none, m) => (none, m)
      | (some cmd, m) =>
        match cmd.input_file, cmd.output_file with
        | some inf, none => (some (InputType.InputRedirect cmd inf), m)
        | none, some outf => (some (InputType.OutputRedirect cmd outf), m)
        | some inf, some outf => (some (InputType.BiRedirect cmd inf outf), m)
        | none, none => (some (InputType.SingleCommand cmd), m)
    | segs =>
      match parsePipeSegs segs with
      | (none, m) => (none, m)
      | (some cs, m) => (some (InputType.Pipe cs), m)

/-- A token list that ends in a dangling redirection operator: walking tokens
with the source's consumption discipline — an operator consumes the following
token as a path, any other token is consumed alone — some redirection
operator is reached as the final token, with no following token.  This is the
class of segments the dangling-operator claim quantifies over. -/
def danglingTokens : List (List Char) → Bool
  | [] => false
  | [t] =>
    if t = ['<'] then true
    else if t = ['>'] then true
    else false
  | t :: u :: rest =>
    if t = ['<'] then danglingTokens rest
    else if t = ['>'] then danglingTokens rest
    else danglingTokens (u :: rest)

/-- A token list containing no program token: under the source's consumption
discipline every token is a redirection operator or the path consumed by one,
so the walk never fills the program slot.  Covers both fully paired operator
lists such as "< f > g" and lists ending in a dangling operator such as "<". -/
def no_program_tokens : List (List Char) → Bool
  | [] => true
  | [t] =>
    if t = ['<'] then true
    else if t = ['>'] then true
    else false
  | t :: _ :: rest =>
    if t = ['<'] then no_program_tokens rest
    else if t = ['>'] then no_program_tokens rest
    else false

/-- The commands contained in a parsed `InputType`. -/
def cmdsOf : InputType → List Command
  | InputType.SingleCommand c => [c]
  | InputType.Pipe cs => cs
  | InputType.InputRedirect c _ => [c]
  | InputType.OutputRedirect c _ => [c]
  | InputType.BiRedirect c _ _ => [c]

/-- The stream installed on a standard descriptor of a child process:
the stream inherited from the shell, a file opened by redirection, or a pipe
end duplicated onto the descriptor by `dup2`. -/
inductive Stdio where
  | inherit
  | file (path : List Char)
  | pipeFd (fd : Nat)
deriving DecidableEq, Repr

/-- The standard-stream state of a child process: what is installed on
descriptor 0 and descriptor 1. -/
structure FdState where
  stdin : Stdio
  stdout : Stdio
deriving DecidableEq, Repr

/-- The exec call issued by `run_single_command`: the program and its argv
(argument 0 is the program itself). -/
structure ExecCall where
  prog : List Char
  argv : List (List Char)
deriving DecidableEq, Repr

/-- Rust's `Option::or`: the first operand when present, otherwise the
second. -/
def opt_or {α : Type} : Option α → Option α → Option α
  | some x, _ => some x
  | none, b => b

/-- The function `run_single_command` of main.rs (lines 138-161), modelled on
the standard-stream state: the effective input file is the override
`input_file.or(cmd.input_file)`, and when present it is opened and `dup2`-ed
onto descriptor 0; then symmetrically for output onto descriptor 1; finally
`execvp(program, [program] ++ args)` is called.  The `close` of the original
file handle after `dup2` does not change what is installed on 0 or 1, so it
does not appear in this state. -/
def run_single_command (st : FdState) (cmd : Command)
    (input_file output_file : Option (List Char)) : FdState × ExecCall :=
  let c_args := cmd.program :: cmd.args
  let infile := opt_or input_file cmd.input_file
  let outfile := opt_or output_file cmd.output_file
  let st1 := match infile with
    | some f => { st with stdin := Stdio.file f }
    | none => st
  let st2 := match outfile with
    | some f => { st1 with stdout := Stdio.file f }
    | none => st1
  (st2, ⟨cmd.program, c_args⟩)

/-- The child branch of the fork in `handle_pipes` (main.rs lines 257-280):
`dup2` the previous pipe's read end onto descriptor 0 if it exists, `dup2`
this stage's write end onto descriptor 1 if it exists, close this stage's
read end (which touches neither descriptor 0 nor 1), then run
`run_single_command cmd None None`, which lets the command's own file
redirections replace what the pipe wiring installed.  The result is the
final standard-stream state of the stage. -/
def pipeline_child (cmd : Command) (prevPipe w r : Option Nat) : FdState :=
  let st0 : FdState := ⟨Stdio.inherit, Stdio.inherit⟩
  let st1 := match prevPipe with
    | some fd => { st0 with stdin := Stdio.pipeFd fd }
    | none => st0
  let st2 := match w with
    | some fd => { st1 with stdout := Stdio.pipeFd fd }
    | none => st1
  let _ := r
  (run_single_command st2 cmd none none).1

/-- A termination status as returned by `waitpid` (the `WaitStatus` cases the
shell distinguishes). -/
inductive WaitSt where
  | exited (pid : Nat) (code : Int)
  | signaled (pid : Nat) (sig : Nat)
  | unknown
deriving DecidableEq, Repr

/-- The record of one successfully forked pipeline stage: its index, its pid
(modelled as the stage index), its command, and the standard-stream state its
child process ends up with. -/
structure ChildRec where
  stage : Nat
  pid : Nat
  cmd : Command
  fds : FdState
deriving DecidableEq, Repr

/-- The parent-side state threaded through the creation loop of
`handle_pipes`: the next fresh descriptor number, the pipe descriptors the
parent currently holds open, the `prev_pipe` variable, the `children` vector,
and the stages at which `fork` failed. -/
structure LoopSt where
  nextFd : Nat
  openFds : List Nat
  prevPipe : Option Nat
  children : List ChildRec
  errs : List Nat
deriving DecidableEq, Repr

/-- The creation loop of `handle_pipes` (main.rs lines 244-298).  Per stage:
if the stage is not the last, create a fresh pipe (both ends open in the
parent); on fork success record the child (whose streams are wired by
`pipeline_child`), close the write end in the parent, and overwrite
`prev_pipe` with the new read end — the old `prev_pipe` is not closed, exactly
as in the source; on fork failure only an error is printed (recorded in
`errs`) and the loop continues. -/
def handle_pipes_loop (forkOk : Nat → Bool) :
    List Command → Nat → LoopSt → LoopSt
  | [], _, st => st
  | cmd :: rest, i, st =>
    let r : Option Nat := if rest.isEmpty then none else some st.nextFd
    let w : Option Nat := if rest.isEmpty then none else some (st.nextFd + 1)
    let st1 : LoopSt :=
      if rest.isEmpty then st
      else { st with nextFd := st.nextFd + 2,
                     openFds := st.openFds ++ [st.nextFd, st.nextFd + 1] }
    if forkOk i then
      let newChild : ChildRec := ⟨i, i, cmd, pipeline_child cmd st1.prevPipe w r⟩
      let st2 : LoopSt := { st1 with children := st1.children ++ [newChild] }
      let st3 : LoopSt := match w with
        | some fd => { st2 with openFds := st2.openFds.erase fd }
        | none => st2
      let st4 : LoopSt := { st3 with prevPipe := r }
      handle_pipes_loop forkOk rest (i + 1) st4
    else
      let st2 : LoopSt := { st1 with errs := st1.errs ++ [i] }
      handle_pipes_loop forkOk rest (i + 1) st2

/-- The wait loop of `handle_pipes` (main.rs lines 304-309): wait on each
recorded child in order and collect the statuses. -/
def collect_waits (waits : Nat → WaitSt) : List ChildRec → List WaitSt
  | [] => []
  | c :: cs => waits c.pid :: collect_waits waits cs

/-- The observable outcome of `handle_pipes`: which pipe descriptors the
parent still holds open after the loop and the final close, the children
created, the stages at which fork failed, the pids waited on, and the
statuses reported to the user. -/
structure OrchResult where
  openFds : List Nat
  childRecs : List ChildRec
  forkErrs : List Nat
  waitedPids : List Nat
  reports : List WaitSt
deriving DecidableEq, Repr

/-- The function `handle_pipes` of main.rs (lines 240-323): run the creation
loop from a state with no pipes open (fresh descriptors start at 3, the first
number past stdin/stdout/stderr), then close `prev_pipe` if it is still set,
then wait on every recorded child in order and report each status.  `forkOk`
says whether the fork at a given stage succeeds, and `waits` gives the
termination status `waitpid` returns for a pid. -/
def handle_pipes (forkOk : Nat → Bool) (waits : Nat → WaitSt)
    (commands : List Command) : OrchResult :=
  let st := handle_pipes_loop forkOk commands 0 ⟨3, [], none, [], []⟩
  let openAfter := match st.prevPipe with
    | some fd => st.openFds.erase fd
    | none => st.openFds
  ⟨openAfter, st.children, st.errs, st.children.map (fun c => c.pid),
    collect_waits waits st.children⟩

/-- The action the main loop takes on one input line. -/
inductive Action where
  | exitShell
  | cdBuiltin (target : List Char)
  | runPipeline (t : InputType)
  | noAction
deriving DecidableEq, Repr

/-- The per-line dispatch of `main` (main.rs lines 170-216): trim the line;
"exit" terminates; a line starting with the two characters "cd" runs the cd
built-in whose target is the second whitespace token, defaulting to "/";
otherwise the line goes to `parse_input`. -/
def main_dispatch (line : List Char) : Action :=
  let input := trim line
  if input = "exit".data then Action.exitShell
  else if List.isPrefixOf "cd".data input then
    let parts := tokenize input
    Action.cdBuiltin ((parts.get? 1).getD "/".data)
  else
    match (parse_input input).1 with
    | some t => Action.runPipeline t
    | none => Action.noAction

/-- C5: splitting on the pipe character discards empty segments:
"a | b | c" parses to a 3-stage pipe, "a |  | b" to a 2-stage pipe (the empty
middle segment is dropped), and every line all of whose pipe segments trim to
empty parses to nothing. -/
theorem c5_pipe_split_discards_empty_segments :
    parse_input "a | b | c".data =
      (some (InputType.Pipe
        [⟨"a".data, [], none, none⟩, ⟨"b".data, [], none, none⟩,
         ⟨"c".data, [], none, none⟩]), []) ∧
    parse_input "a |  | b".data =
      (some (InputType.Pipe
        [⟨"a".data, [], none, none⟩, ⟨"b".data, [], none, none⟩]), []) ∧
    (∀ s : List Char,
       (∀ seg ∈ (splitP (fun c => c = '|') (trim s)).map trim, seg = []) →
       parse_input s = (none, [])) := by
  refine ⟨by decide, by decide, ?_⟩
  intro s hall
  by_cases h0 : trim s = []
  · simp [parse_input, h0]
  · have hfil : ((splitP (fun c => c = '|') (trim s)).map trim).filter
        (fun x => !x.isEmpty) = [] := by
      rw [List.filter_eq_nil_iff]
      intro seg hseg
      rw [hall seg hseg]
      simp
    simp only [parse_input, if_neg h0]
    rw [hfil]

/-- Witness for C5: the line " | | ", all of whose pipe segments trim to
empty, parses to nothing. -/
theorem c5_witness :
    parse_input " | | ".data = (none, []) :=
  c5_pipe_split_discards_empty_segments.2.2 " | | ".data (by decide)

/-- C6: parsing "cat < in.txt > out.txt" yields the command `cat` with
input file in.txt and output file out.txt, wrapped in the `BiRedirect`
pipeline shape. -/
theorem c6_biredirect_parse :
    parse_input "cat < in.txt > out.txt".data =
      (some (InputType.BiRedirect
        ⟨"cat".data, [], some "in.txt".data, some "out.txt".data⟩
        "in.txt".data "out.txt".data), []) := by
  decide

/-- C1 (refuting evaluation): the claim that the parent holds no pipe
descriptor open after the creation loop fails on the code.  Running the
two-stage pipeline "a | b" with every fork succeeding leaves read end 3 open
in the parent, and the three-stage pipeline "a | b | c" leaves read ends 3
and 5 open: `prev_pipe` is overwritten without being closed and is `None` at
the final close, so every pipe read end leaks. -/
theorem c1_parent_leaks_pipe_read_end :
    (handle_pipes (fun _ => true) (fun p => WaitSt.exited p 0)
      [⟨"a".data, [], none, none⟩, ⟨"b".data, [], none, none⟩]).openFds = [3] ∧
    (handle_pipes (fun _ => true) (fun p => WaitSt.exited p 0)
      [⟨"a".data, [], none, none⟩, ⟨"b".data, [], none, none⟩,
       ⟨"c".data, [], none, none⟩]).openFds = [3, 5] := by
  refine ⟨by decide, by decide⟩

/-- C2 (counterexample): when fork fails at stage 1 of the three-stage
pipeline "a | b | c", the orchestrator still creates stage 2 — the creation
loop is not aborted — so the claim that no further stage is launched is
false. -/
theorem c2_fork_failure_does_not_stop_loop :
    ((handle_pipes (fun i => !(i == 1)) (fun p => WaitSt.exited p 0)
      [⟨"a".data, [], none, none⟩, ⟨"b".data, [], none, none⟩,
       ⟨"c".data, [], none, none⟩]).childRecs.map (fun c => c.stage)) = [0, 2] ∧
    2 ∈ ((handle_pipes (fun i => !(i == 1)) (fun p => WaitSt.exited p 0)
      [⟨"a".data, [], none, none⟩, ⟨"b".data, [], none, none⟩,
       ⟨"c".data, [], none, none⟩]).childRecs.map (fun c => c.stage)) := by
  refine ⟨by decide, by decide⟩

/-- C8: in `run_single_command`, the stream installed on standard input is
the explicit override when present, otherwise the command's own input file
when present, otherwise the inherited stream — and symmetrically and
independently for standard output. -/
theorem c8_override_precedence (st : FdState) (cmd : Command)
    (i o : Option (List Char)) :
    (run_single_command st cmd i o).1.stdin =
      (match i, cmd.input_file with
       | some f, _ => Stdio.file f
       | none, some f => Stdio.file f
       | none, none => st.stdin) ∧
    (run_single_command st cmd i o).1.stdout =
      (match o, cmd.output_file with
       | some g, _ => Stdio.file g
       | none, some g => Stdio.file g
       | none, none => st.stdout) := by
  rcases i with _ | f <;> rcases o with _ | g <;>
    rcases hin : cmd.input_file with _ | fi <;>
      rcases hout : cmd.output_file with _ | fo <;>
        simp [run_single_command, opt_or, hin, hout]

/-- Helper: the creation loop appends exactly the successfully forked stages
to `children` and exactly the failed stages to `errs`, in index order. -/
theorem handle_pipes_loop_bookkeeping (forkOk : Nat → Bool) :
    ∀ (cmds : List Command) (i : Nat) (st : LoopSt),
      (handle_pipes_loop forkOk cmds i st).children.map (fun c => c.stage) =
        st.children.map (fun c => c.stage) ++
          (List.range' i cmds.length).filter forkOk ∧
      (handle_pipes_loop forkOk cmds i st).errs =
        st.errs ++ (List.range' i cmds.length).filter (fun j => !forkOk j) := by
  intro cmds
  induction cmds with
  | nil => intro i st; simp [handle_pipes_loop, List.range']
  | cons cmd rest ih =>
    intro i st
    by_cases hre : rest.isEmpty <;> by_cases hf : forkOk i <;>
      simp [handle_pipes_loop, hre, hf, List.range'_succ, List.filter_cons,
        ih, List.append_assoc]

/-- Helper: the wait loop collects exactly one status per recorded child, in
order. -/
theorem collect_waits_eq_map (waits : Nat → WaitSt) :
    ∀ cs : List ChildRec, collect_waits waits cs = cs.map (fun c => waits c.pid) := by
  intro cs
  induction cs with
  | nil => rfl
  | cons c cs ih => simp [collect_waits, ih]

/-- C2 (amended): a fork failure at a stage does not crash the orchestrator
and does not abort the creation loop: exactly the stages whose fork succeeds
are created, in index order, exactly the failed stages are reported as fork
errors, and every created child — created before or after a failed stage —
is waited on exactly once, in creation order, with its status reported. -/
theorem c2_children_waited_and_reported (forkOk : Nat → Bool)
    (waits : Nat → WaitSt) (cmds : List Command) :
    (handle_pipes forkOk waits cmds).childRecs.map (fun c => c.stage) =
      (List.range cmds.length).filter forkOk ∧
    (handle_pipes forkOk waits cmds).forkErrs =
      (List.range cmds.length).filter (fun j => !forkOk j) ∧
    (handle_pipes forkOk waits cmds).waitedPids =
      (handle_pipes forkOk waits cmds).childRecs.map (fun c => c.pid) ∧
    (handle_pipes forkOk waits cmds).reports =
      (handle_pipes forkOk waits cmds).childRecs.map (fun c => waits c.pid) := by
  have hb := handle_pipes_loop_bookkeeping forkOk cmds 0 ⟨3, [], none, [], []⟩
  refine ⟨?_, ?_, ?_, ?_⟩
  · simpa [handle_pipes, List.range_eq_range'] using hb.1
  · simpa [handle_pipes, List.range_eq_range'] using hb.2
  · simp [handle_pipes]
  · simp [handle_pipes, collect_waits_eq_map]

/-- Helper: the command's own input file always wins on standard input in a
pipeline child, whatever the pipe wiring installed. -/
theorem pipeline_child_input (cmd : Command) (prev w r : Option Nat)
    (f : List Char) (hf : cmd.input_file = some f) :
    (pipeline_child cmd prev w r).stdin = Stdio.file f := by
  rcases ho : cmd.output_file with _ | g <;>
    simp [pipeline_child, run_single_command, opt_or, hf, ho]

/-- Helper: the command's own output file always wins on standard output in a
pipeline child, whatever the pipe wiring installed. -/
theorem pipeline_child_output (cmd : Command) (prev w r : Option Nat)
    (g : List Char) (hg : cmd.output_file = some g) :
    (pipeline_child cmd prev w r).stdout = Stdio.file g := by
  rcases hi : cmd.input_file with _ | f <;>
    simp [pipeline_child, run_single_command, opt_or, hi, hg]

/-- Helper: every child record the creation loop adds carries the stream
state `pipeline_child` computes for its own command. -/
theorem handle_pipes_loop_child_fds (forkOk : Nat → Bool) :
    ∀ (cmds : List Command) (i : Nat) (st : LoopSt) (c : ChildRec),
      c ∈ (handle_pipes_loop forkOk cmds i st).children →
      c ∈ st.children ∨ ∃ prev w r, c.fds = pipeline_child c.cmd prev w r := by
  intro cmds
  induction cmds with
  | nil =>
    intro i st c hc
    exact Or.inl hc
  | cons cmd rest ih =>
    intro i st c hc
    by_cases hre : rest.isEmpty
    · by_cases hf : forkOk i
      · simp only [handle_pipes_loop, hre, hf, if_true, ite_true] at hc
        rcases ih _ _ _ hc with h1 | h2
        · rcases List.mem_append.mp h1 with h3 | h3
          · exact Or.inl h3
          · have h4 := List.mem_singleton.mp h3
            subst h4
            exact Or.inr ⟨st.prevPipe, none, none, rfl⟩
        · exact Or.inr h2
      · simp only [handle_pipes_loop, hre, hf, Bool.false_eq_true, if_true,
          ite_true, if_false, ite_false] at hc
        rcases ih _ _ _ hc with h1 | h2
        · exact Or.inl h1
        · exact Or.inr h2
    · by_cases hf : forkOk i
      · simp only [handle_pipes_loop, hre, hf, Bool.false_eq_true, if_true,
          ite_true, if_false, ite_false] at hc
        rcases ih _ _ _ hc with h1 | h2
        · rcases List.mem_append.mp h1 with h3 | h3
          · exact Or.inl h3
          · have h4 := List.mem_singleton.mp h3
            subst h4
            exact Or.inr ⟨st.prevPipe, some (st.nextFd + 1), some st.nextFd, rfl⟩
        · exact Or.inr h2
      · simp only [handle_pipes_loop, hre, hf, Bool.false_eq_true, if_true,
          ite_true, if_false, ite_false] at hc
        rcases ih _ _ _ hc with h1 | h2
        · exact Or.inl h1
        · exact Or.inr h2

/-- C10: for every child record a piped pipeline produces, a per-segment
input file on the command replaces the pipe connection on standard input,
and a per-segment output file replaces the pipe connection on standard
output — the file, not the pipe, is what the stage actually uses. -/
theorem c10_file_redirect_overrides_pipe (forkOk : Nat → Bool)
    (waits : Nat → WaitSt) (cmds : List Command) (c : ChildRec)
    (hc : c ∈ (handle_pipes forkOk waits cmds).childRecs) :
    (∀ f, c.cmd.input_file = some f → c.fds.stdin = Stdio.file f) ∧
    (∀ g, c.cmd.output_file = some g → c.fds.stdout = Stdio.file g) := by
  have hc' : c ∈ (handle_pipes_loop forkOk cmds 0 ⟨3, [], none, [], []⟩).children := by
    simpa [handle_pipes] using hc
  rcases handle_pipes_loop_child_fds forkOk cmds 0 ⟨3, [], none, [], []⟩ c hc' with h | h
  · simp at h
  · rcases h with ⟨prev, w, r, hfds⟩
    constructor
    · intro f hf
      rw [hfds]
      exact pipeline_child_input c.cmd prev w r f hf
    · intro g hg
      rw [hfds]
      exact pipeline_child_output c.cmd prev w r g hg

/-- Witness for C10: in the concrete pipeline "a | b < f > g", the second
stage's child ends with the input file f on standard input and the output
file g on standard output, although it is the downstream end of a pipe. -/
theorem c10_witness :
    (⟨(1 : Nat), 1, ⟨"b".data, [], some "f".data, some "g".data⟩,
      ⟨Stdio.file "f".data, Stdio.file "g".data⟩⟩ : ChildRec).fds.stdin =
        Stdio.file "f".data ∧
    (⟨(1 : Nat), 1, ⟨"b".data, [], some "f".data, some "g".data⟩,
      ⟨Stdio.file "f".data, Stdio.file "g".data⟩⟩ : ChildRec).fds.stdout =
        Stdio.file "g".data := by
  have h := c10_file_redirect_overrides_pipe (fun _ => true)
    (fun p => WaitSt.exited p 0)
    [⟨"a".data, [], none, none⟩, ⟨"b".data, [], some "f".data, some "g".data⟩]
    ⟨1, 1, ⟨"b".data, [], some "f".data, some "g".data⟩,
      ⟨Stdio.file "f".data, Stdio.file "g".data⟩⟩ (by decide)
  exact ⟨h.1 _ rfl, h.2 _ rfl⟩

/-- Helper: a split never produces an empty list of segments. -/
theorem splitP_ne_nil (p : Char → Bool) : ∀ cs, splitP p cs ≠ [] := by
  intro cs
  induction cs with
  | nil => simp [splitP]
  | cons c cs ih =>
    by_cases h : p c = true
    · simp [splitP, h]
    · obtain ⟨seg, rest, hs⟩ := List.exists_cons_of_ne_nil ih
      simp [splitP, h, hs]

/-- Helper: a leading whitespace character does not change the token list. -/
theorem tokenize_cons_ws {c : Char} (h : ws c = true) (cs : List Char) :
    tokenize (c :: cs) = tokenize cs := by
  simp [tokenize, splitP, h, List.filter_cons]

/-- Helper: appending a separator appends one empty segment to the split. -/
theorem splitP_append_sep {p : Char → Bool} {c : Char} (h : p c = true) :
    ∀ cs, splitP p (cs ++ [c]) = splitP p cs ++ [[]] := by
  intro cs
  induction cs with
  | nil => simp [splitP, h]
  | cons d cs ih =>
    by_cases hd : p d = true
    · simp [splitP, hd, ih]
    · obtain ⟨seg, rest, hs⟩ := List.exists_cons_of_ne_nil (splitP_ne_nil p cs)
      have hstep : splitP p (cs ++ [c]) = seg :: (rest ++ [[]]) := by
        rw [ih, hs]
        rfl
      simp [splitP, hd, hs, hstep]

/-- Helper: a trailing whitespace character does not change the token list. -/
theorem tokenize_append_ws {c : Char} (h : ws c = true) (s : List Char) :
    tokenize (s ++ [c]) = tokenize s := by
  simp [tokenize, splitP_append_sep h, List.filter_append]

/-- Helper: trailing whitespace does not change the token list. -/
theorem tokenize_append_all_ws :
    ∀ t : List Char, (∀ x ∈ t, ws x = true) → ∀ s, tokenize (s ++ t) = tokenize s := by
  intro t
  induction t with
  | nil => intro _ s; simp
  | cons c t ih =>
    intro h s
    have hsplit : s ++ c :: t = (s ++ [c]) ++ t := by simp
    rw [hsplit, ih (fun x hx => h x (List.mem_cons_of_mem c hx)) (s ++ [c]),
      tokenize_append_ws (h c (List.mem_cons_self c t)) s]

/-- Helper: leading whitespace does not change the token list. -/
theorem tokenize_dropWhile_ws : ∀ s, tokenize (List.dropWhile ws s) = tokenize s := by
  intro s
  induction s with
  | nil => rfl
  | cons c cs ih =>
    by_cases h : ws c = true
    · simp [List.dropWhile_cons, h, ih, tokenize_cons_ws h]
    · simp [List.dropWhile_cons, h]

/-- Helper: trimming does not change the token list. -/
theorem tokenize_trim (s : List Char) : tokenize (trim s) = tokenize s := by
  have hsplit : ((s.dropWhile ws).reverse.dropWhile ws).reverse ++
      ((s.dropWhile ws).reverse.takeWhile ws).reverse = s.dropWhile ws := by
    rw [← List.reverse_append, List.takeWhile_append_dropWhile, List.reverse_reverse]
  have hws : ∀ x ∈ ((s.dropWhile ws).reverse.takeWhile ws).reverse, ws x = true := by
    intro x hx
    exact List.mem_takeWhile_imp (List.mem_reverse.mp hx)
  calc tokenize (trim s)
      = tokenize (((s.dropWhile ws).reverse.dropWhile ws).reverse ++
          ((s.dropWhile ws).reverse.takeWhile ws).reverse) :=
        (tokenize_append_all_ws _ hws _).symm
    _ = tokenize (s.dropWhile ws) := by rw [hsplit]
    _ = tokenize s := tokenize_dropWhile_ws s

/-- Helper: tokens are never empty. -/
theorem mem_tokenize_ne_nil {t : List Char} {s : List Char} (h : t ∈ tokenize s) :
    t ≠ [] := by
  have := (List.mem_filter.mp h).2
  simpa using this

/-- Helper: a string with no tokens is all whitespace. -/
theorem tokenize_nil_all_ws : ∀ s : List Char, tokenize s = [] → ∀ c ∈ s, ws c = true := by
  intro s
  induction s with
  | nil => intro _ c hc; cases hc
  | cons c cs ih =>
    intro h d hd
    by_cases hc : ws c = true
    · rw [tokenize_cons_ws hc] at h
      rcases List.mem_cons.mp hd with rfl | hd'
      · exact hc
      · exact ih h d hd'
    · obtain ⟨seg, rest, hs⟩ := List.exists_cons_of_ne_nil (splitP_ne_nil ws cs)
      simp [tokenize, splitP, hc, hs, List.filter_cons] at h

/-- Helper: a string with no tokens trims to nothing. -/
theorem tokenize_nil_trim {s : List Char} (h : tokenize s = []) : trim s = [] := by
  have h1 : List.dropWhile ws s = [] := List.dropWhile_eq_nil_iff.mpr (tokenize_nil_all_ws s h)
  simp [trim, h1]

/-- Helper: a string trimming to nothing has no tokens. -/
theorem trim_nil_tokenize {s : List Char} (h : trim s = []) : tokenize s = [] := by
  calc tokenize s = tokenize (trim s) := (tokenize_trim s).symm
    _ = [] := by rw [h]; rfl

/-- Helper: trimming only removes characters. -/
theorem mem_trim {c : Char} {s : List Char} (h : c ∈ trim s) : c ∈ s := by
  have h0 : c ∈ (s.dropWhile ws).reverse.dropWhile ws := List.mem_reverse.mp h
  have h1 : c ∈ (s.dropWhile ws).reverse := (List.dropWhile_sublist ws).subset h0
  have h2 : c ∈ s.dropWhile ws := List.mem_reverse.mp h1
  exact (List.dropWhile_sublist ws).subset h2

/-- Helper: a string containing no separator splits into itself alone. -/
theorem splitP_no_sep {p : Char → Bool} :
    ∀ s : List Char, (∀ c ∈ s, p c = false) → splitP p s = [s] := by
  intro s
  induction s with
  | nil => intro _; rfl
  | cons c cs ih =>
    intro h
    have hc : p c = false := h c (List.mem_cons_self c cs)
    have hcs := ih (fun d hd => h d (List.mem_cons_of_mem c hd))
    simp [splitP, hc, hcs]

/-- Helper: when the program slot is already filled and no redirection
operator occurs among the remaining tokens, the token walk appends every
remaining token as an argument and succeeds with no message. -/
theorem walkTokens_no_ops :
    ∀ (ts : List (List Char)) (prog : List Char) (args : List (List Char))
      (inf outf : Option (List Char)),
      prog ≠ [] → (∀ t ∈ ts, t ≠ ['<'] ∧ t ≠ ['>']) →
      walkTokens prog args inf outf ts = (some ⟨prog, args ++ ts, inf, outf⟩, []) := by
  intro ts
  induction ts with
  | nil =>
    intro prog args inf outf hp _
    simp [walkTokens, hp]
  | cons t ts ih =>
    intro prog args inf outf hp h
    have ht := h t (List.mem_cons_self t ts)
    have hrec := ih prog (args ++ [t]) inf outf hp
      (fun x hx => h x (List.mem_cons_of_mem t hx))
    rw [walkTokens.eq_def]
    simp [ht.1, ht.2, hp, hrec]

/-- Helper: whenever the token walk yields a command, its program is
non-empty: the walk returns a command only at the end of the token list, and
only if the program slot is filled. -/
theorem walkTokens_some_program_ne_nil :
    ∀ (prog : List Char) (args : List (List Char)) (inf outf : Option (List Char))
      (ts : List (List Char)) (c : Command) (m : List (List Char)),
      walkTokens prog args inf outf ts = (some c, m) → c.program ≠ [] := by
  intro prog args inf outf ts
  induction prog, args, inf, outf, ts using walkTokens.induct with
  | case1 args inf outf =>
    intro c m h
    simp [walkTokens] at h
  | case2 prog args inf outf hp =>
    intro c m h
    simp [walkTokens, hp] at h
    rcases h with ⟨h1, _⟩
    rw [← h1]
    exact hp
  | case3 prog args inf outf =>
    intro c m h
    simp [walkTokens] at h
  | case4 prog args inf outf seg rest ih =>
    intro c m h
    simp only [walkTokens, if_pos rfl] at h
    exact ih c m h
  | case5 prog args inf outf hne =>
    intro c m h
    simp [walkTokens] at h
  | case6 prog args inf outf seg rest hne ih =>
    intro c m h
    simp only [walkTokens, if_neg hne, if_pos rfl] at h
    exact ih c m h
  | case7 args inf outf t ts h1 h2 ih =>
    intro c m h
    rw [walkTokens.eq_def] at h
    simp [h1, h2] at h
    exact ih c m h
  | case8 prog args inf outf t ts h1 h2 hp ih =>
    intro c m h
    rw [walkTokens.eq_def] at h
    simp [h1, h2, hp] at h
    exact ih c m h

/-- Helper: whenever `parse_redir_command` yields a command, its program is
non-empty. -/
theorem parse_redir_command_program_ne_nil {s : List Char} {c : Command}
    {m : List (List Char)} (h : parse_redir_command s = (some c, m)) :
    c.program ≠ [] := by
  by_cases h0 : tokenize (trim s) = []
  · simp [parse_redir_command, h0] at h
  · simp only [parse_redir_command, if_neg h0] at h
    exact walkTokens_some_program_ne_nil [] [] none none _ c m h

/-- Helper: every command in a successfully parsed pipe segment list has a
non-empty program. -/
theorem parsePipeSegs_program_ne_nil :
    ∀ (segs : List (List Char)) (cs : List Command) (m : List (List Char)),
      parsePipeSegs segs = (some cs, m) → ∀ c ∈ cs, c.program ≠ [] := by
  intro segs
  induction segs with
  | nil =>
    intro cs m h c hc
    simp [parsePipeSegs] at h
    rw [h.1] at hc
    cases hc
  | cons seg rest ih =>
    intro cs m h c hc
    rcases hp : parse_redir_command seg with ⟨oc, m0⟩
    rcases oc with _ | c0
    · simp [parsePipeSegs, hp] at h
    · rcases hr : parsePipeSegs rest with ⟨ocs, m2⟩
      rcases ocs with _ | cs2
      · simp [parsePipeSegs, hp, hr] at h
      · simp only [parsePipeSegs, hp, hr, Prod.mk.injEq, Option.some.injEq] at h
        rw [← h.1] at hc
        rcases List.mem_cons.mp hc with h3 | h3
        · rw [h3]
          exact parse_redir_command_program_ne_nil hp
        · exact ih cs2 m2 hr c h3

/-- Helper: walking a token list that ends in a dangling operator always
fails with exactly one of the two syntax-error messages, whatever the state
of the walk is when it starts. -/
theorem dangling_walk_error :
    ∀ ts : List (List Char), danglingTokens ts = true →
      ∀ (prog : List Char) (args : List (List Char)) (inf outf : Option (List Char)),
        ∃ msg, walkTokens prog args inf outf ts = (none, [msg]) ∧
          (msg = err_no_input_msg ∨ msg = err_no_output_msg) := by
  intro ts
  induction ts using danglingTokens.induct with
  | case1 =>
    intro hd
    simp [danglingTokens] at hd
  | case2 =>
    intro _ prog args inf outf
    exact ⟨err_no_input_msg, by simp [walkTokens], Or.inl rfl⟩
  | case3 hne =>
    intro _ prog args inf outf
    exact ⟨err_no_output_msg, by simp [walkTokens, hne], Or.inr rfl⟩
  | case4 t h1 h2 =>
    intro hd
    simp [danglingTokens, h1, h2] at hd
  | case5 u rest ih =>
    intro hd prog args inf outf
    have hd' : danglingTokens rest = true := by simpa [danglingTokens] using hd
    have hstep : walkTokens prog args inf outf (['<'] :: u :: rest) =
        walkTokens prog args (some u) outf rest := by simp [walkTokens]
    rw [hstep]
    exact ih hd' prog args (some u) outf
  | case6 u rest hne ih =>
    intro hd prog args inf outf
    have hd' : danglingTokens rest = true := by simpa [danglingTokens, hne] using hd
    have hstep : walkTokens prog args inf outf (['>'] :: u :: rest) =
        walkTokens prog args inf (some u) rest := by simp [walkTokens, hne]
    rw [hstep]
    exact ih hd' prog args inf (some u)
  | case7 t u rest h1 h2 ih =>
    intro hd prog args inf outf
    have hd' : danglingTokens (u :: rest) = true := by
      simpa [danglingTokens, h1, h2] using hd
    by_cases hp : prog = []
    · have hstep : walkTokens prog args inf outf (t :: u :: rest) =
          walkTokens t args inf outf (u :: rest) := by
        rw [walkTokens.eq_def]
        simp [h1, h2, hp]
      rw [hstep]
      exact ih hd' t args inf outf
    · have hstep : walkTokens prog args inf outf (t :: u :: rest) =
          walkTokens prog (args ++ [t]) inf outf (u :: rest) := by
        rw [walkTokens.eq_def]
        simp [h1, h2, hp]
      rw [hstep]
      exact ih hd' prog (args ++ [t]) inf outf

/-- Helper: a segment whose tokens end in a dangling operator always parses
to no command plus exactly one syntax-error message. -/
theorem parse_redir_command_dangling {s : List Char}
    (hd : danglingTokens (tokenize s) = true) :
    ∃ msg, parse_redir_command s = (none, [msg]) ∧
      (msg = err_no_input_msg ∨ msg = err_no_output_msg) := by
  have hd' : danglingTokens (tokenize (trim s)) = true := by
    rw [tokenize_trim]
    exact hd
  have hne : tokenize (trim s) ≠ [] := by
    intro h0
    rw [h0] at hd'
    simp [danglingTokens] at hd'
  have hw := dangling_walk_error (tokenize (trim s)) hd' [] [] none none
  simpa [parse_redir_command, hne] using hw

/-- Helper: a pipe-segment list containing a dangling segment never parses to
a command list: the loop aborts at its first failing segment, and one
exists. -/
theorem parsePipeSegs_dangling :
    ∀ segs : List (List Char),
      (∃ seg ∈ segs, danglingTokens (tokenize seg) = true) →
      (parsePipeSegs segs).1 = none := by
  intro segs
  induction segs with
  | nil =>
    rintro ⟨seg, hmem, _⟩
    cases hmem
  | cons seg rest ih =>
    rintro ⟨seg', hmem, hdsg⟩
    rcases List.mem_cons.mp hmem with rfl | hmem'
    · obtain ⟨msg, hp, _⟩ := parse_redir_command_dangling hdsg
      simp [parsePipeSegs, hp]
    · rcases hp : parse_redir_command seg with ⟨oc, m0⟩
      rcases oc with _ | c0
      · simp [parsePipeSegs, hp]
      · have hih := ih ⟨seg', hmem', hdsg⟩
        rcases hr : parsePipeSegs rest with ⟨ocs, m2⟩
        rw [hr] at hih
        rcases ocs with _ | cs2
        · simp [parsePipeSegs, hp, hr]
        · simp at hih

/-- Helper: a pipe-free line with at least one token is parsed by handing its
single trimmed segment to the segment parser, whose failure therefore decides
the whole line. -/
theorem single_seg_none {s : List Char} (m : List (List Char))
    (hpipe : '|' ∉ s) (hne : tokenize s ≠ [])
    (hseg : parse_redir_command (trim (trim s)) = (none, m)) :
    parse_input s = (none, m) := by
  have htrim_ne : trim s ≠ [] := by
    intro h
    exact hne (trim_nil_tokenize h)
  have hsp : splitP (fun c => c = '|') (trim s) = [trim s] :=
    splitP_no_sep (trim s) (fun c hc => by
      simp only [decide_eq_false_iff_not]
      exact fun he => hpipe (he ▸ mem_trim hc))
  have h2 : trim (trim s) ≠ [] := by
    intro h
    have h3 := trim_nil_tokenize h
    rw [tokenize_trim] at h3
    exact hne h3
  have hfil : ((splitP (fun c => c = '|') (trim s)).map trim).filter
      (fun x => !x.isEmpty) = [trim (trim s)] := by
    rw [hsp]
    simp [List.filter_cons, List.isEmpty_iff, h2]
  simp only [parse_input, if_neg htrim_ne]
  rw [hfil]
  simp [hseg]

/-- Helper: walking a token list with no program token never yields a
command when the program slot starts empty. -/
theorem no_program_walk_none :
    ∀ ts : List (List Char), no_program_tokens ts = true →
      ∀ (args : List (List Char)) (inf outf : Option (List Char)),
        (walkTokens [] args inf outf ts).1 = none := by
  intro ts
  induction ts using no_program_tokens.induct with
  | case1 =>
    intro _ args inf outf
    simp [walkTokens]
  | case2 =>
    intro _ args inf outf
    simp [walkTokens]
  | case3 hne =>
    intro _ args inf outf
    simp [walkTokens, hne]
  | case4 t h1 h2 =>
    intro hnp
    simp [no_program_tokens, h1, h2] at hnp
  | case5 u rest ih =>
    intro hnp args inf outf
    have hnp' : no_program_tokens rest = true := by
      simpa [no_program_tokens] using hnp
    have hstep : walkTokens [] args inf outf (['<'] :: u :: rest) =
        walkTokens [] args (some u) outf rest := by simp [walkTokens]
    rw [hstep]
    exact ih hnp' args (some u) outf
  | case6 u rest hne ih =>
    intro hnp args inf outf
    have hnp' : no_program_tokens rest = true := by
      simpa [no_program_tokens, hne] using hnp
    have hstep : walkTokens [] args inf outf (['>'] :: u :: rest) =
        walkTokens [] args inf (some u) rest := by simp [walkTokens, hne]
    rw [hstep]
    exact ih hnp' args inf (some u)
  | case7 t u rest h1 h2 =>
    intro hnp
    simp [no_program_tokens, h1, h2] at hnp

/-- Helper: walking a token list with no program token and no dangling
operator ends silently: no command and no message. -/
theorem no_program_walk_silent :
    ∀ ts : List (List Char), no_program_tokens ts = true →
      danglingTokens ts = false →
      ∀ (args : List (List Char)) (inf outf : Option (List Char)),
        walkTokens [] args inf outf ts = (none, []) := by
  intro ts
  induction ts using no_program_tokens.induct with
  | case1 =>
    intro _ _ args inf outf
    simp [walkTokens]
  | case2 =>
    intro _ hd
    simp [danglingTokens] at hd
  | case3 hne =>
    intro _ hd
    simp [danglingTokens, hne] at hd
  | case4 t h1 h2 =>
    intro hnp _
    simp [no_program_tokens, h1, h2] at hnp
  | case5 u rest ih =>
    intro hnp hd args inf outf
    have hnp' : no_program_tokens rest = true := by
      simpa [no_program_tokens] using hnp
    have hd' : danglingTokens rest = false := by
      simpa [danglingTokens] using hd
    have hstep : walkTokens [] args inf outf (['<'] :: u :: rest) =
        walkTokens [] args (some u) outf rest := by simp [walkTokens]
    rw [hstep]
    exact ih hnp' hd' args (some u) outf
  | case6 u rest hne ih =>
    intro hnp hd args inf outf
    have hnp' : no_program_tokens rest = true := by
      simpa [no_program_tokens, hne] using hnp
    have hd' : danglingTokens rest = false := by
      simpa [danglingTokens, hne] using hd
    have hstep : walkTokens [] args inf outf (['>'] :: u :: rest) =
        walkTokens [] args inf (some u) rest := by simp [walkTokens, hne]
    rw [hstep]
    exact ih hnp' hd' args inf (some u)
  | case7 t u rest h1 h2 =>
    intro hnp _
    simp [no_program_tokens, h1, h2] at hnp

/-- Helper: a segment with no program token yields no command. -/
theorem parse_redir_command_no_program {s : List Char}
    (hnp : no_program_tokens (tokenize s) = true) :
    (parse_redir_command s).1 = none := by
  have hnp' : no_program_tokens (tokenize (trim s)) = true := by
    rw [tokenize_trim]
    exact hnp
  by_cases hne : tokenize (trim s) = []
  · simp [parse_redir_command, hne]
  · simp only [parse_redir_command, if_neg hne]
    exact no_program_walk_none (tokenize (trim s)) hnp' [] none none

/-- Helper: a segment with no program token and no dangling operator is
silently absent: no command and no message. -/
theorem parse_redir_command_no_program_silent {s : List Char}
    (hnp : no_program_tokens (tokenize s) = true)
    (hd : danglingTokens (tokenize s) = false) :
    parse_redir_command s = (none, []) := by
  have hnp' : no_program_tokens (tokenize (trim s)) = true := by
    rw [tokenize_trim]
    exact hnp
  have hd' : danglingTokens (tokenize (trim s)) = false := by
    rw [tokenize_trim]
    exact hd
  by_cases hne : tokenize (trim s) = []
  · simp [parse_redir_command, hne]
  · simp only [parse_redir_command, if_neg hne]
    exact no_program_walk_silent (tokenize (trim s)) hnp' hd' [] none none

/-- C7 (amended): every Command the parser produces has a non-empty program
string; an input with no program token yields no Command: empty or
all-whitespace lines give the silent absent result, a no-program segment
whose operators all have a following token (such as "< f") is silently
absent too — also at line level for pipe-free lines — while a no-program
segment ending in a dangling operator still yields no Command, though with
the syntax-error message rather than silently. -/
theorem c7_program_nonempty :
    (∀ (s : List Char) (t : InputType) (m : List (List Char)),
       parse_input s = (some t, m) → ∀ c ∈ cmdsOf t, c.program ≠ []) ∧
    (∀ s : List Char, tokenize s = [] → parse_input s = (none, [])) ∧
    (∀ s : List Char, no_program_tokens (tokenize s) = true →
       (parse_redir_command s).1 = none) ∧
    (∀ s : List Char, no_program_tokens (tokenize s) = true →
       danglingTokens (tokenize s) = false →
       parse_redir_command s = (none, [])) ∧
    (∀ s : List Char, '|' ∉ s → no_program_tokens (tokenize s) = true →
       danglingTokens (tokenize s) = false →
       parse_input s = (none, [])) := by
  refine ⟨?_, ?_, ?_, ?_, ?_⟩
  · intro s t m h c hc
    by_cases h0 : trim s = []
    · simp [parse_input, h0] at h
    · simp only [parse_input, if_neg h0] at h
      rcases hq : ((splitP (fun c => c = '|') (trim s)).map trim).filter
          (fun x => !x.isEmpty) with _ | ⟨seg, rest⟩
      · rw [hq] at h
        simp at h
      · rw [hq] at h
        rcases rest with _ | ⟨seg2, rest2⟩
        · rcases hp : parse_redir_command seg with ⟨oc, m0⟩
          rcases oc with _ | cmd
          · simp [hp] at h
          · rcases hif : cmd.input_file with _ | inf <;>
              rcases hof : cmd.output_file with _ | outf <;>
              simp only [hp, hif, hof, Prod.mk.injEq, Option.some.injEq] at h <;>
              rw [← h.1] at hc <;>
              simp only [cmdsOf, List.mem_singleton] at hc <;>
              rw [hc] <;>
              exact parse_redir_command_program_ne_nil hp
        · rcases hps : parsePipeSegs (seg :: seg2 :: rest2) with ⟨ocs, m2⟩
          rcases ocs with _ | cs
          · simp [hps] at h
          · simp only [hps, Prod.mk.injEq, Option.some.injEq] at h
            rw [← h.1] at hc
            simp only [cmdsOf] at hc
            exact parsePipeSegs_program_ne_nil (seg :: seg2 :: rest2) cs m2 hps c hc
  · intro s h
    have h0 : trim s = [] := tokenize_nil_trim h
    simp [parse_input, h0]
  · intro s hnp
    exact parse_redir_command_no_program hnp
  · intro s hnp hd
    exact parse_redir_command_no_program_silent hnp hd
  · intro s hpipe hnp hd
    by_cases hne : tokenize s = []
    · have h0 : trim s = [] := tokenize_nil_trim hne
      simp [parse_input, h0]
    · have hseg : parse_redir_command (trim (trim s)) = (none, []) := by
        apply parse_redir_command_no_program_silent
        · rw [tokenize_trim, tokenize_trim]
          exact hnp
        · rw [tokenize_trim, tokenize_trim]
          exact hd
      exact single_seg_none [] hpipe hne hseg

/-- Counterexample for C7 as stated: the line "<" contains no program token,
yet it does not produce the bare absent result — the parser emits the
syntax-error message, unlike empty input. -/
theorem c7_lone_dangler_not_silent :
    parse_redir_command "<".data = (none, [err_no_input_msg]) ∧
    parse_input "<".data = (none, [err_no_input_msg]) ∧
    parse_input "<".data ≠ parse_input "".data := by
  refine ⟨by decide, by decide, by decide⟩

/-- Witness for C7: the parsed line "ls -l" carries the non-empty program
"ls"; the all-whitespace line is silently absent; and the no-program,
non-dangling segment and line "< f" are silently absent. -/
theorem c7_witness :
    ("ls".data : List Char) ≠ [] ∧
    parse_input "   ".data = (none, []) ∧
    (parse_redir_command "< f".data).1 = none ∧
    parse_redir_command "< f".data = (none, []) ∧
    parse_input "< f".data = (none, []) := by
  refine ⟨?_, ?_, ?_, ?_, ?_⟩
  · exact c7_program_nonempty.1 "ls -l".data
      (InputType.SingleCommand ⟨"ls".data, ["-l".data], none, none⟩) []
      (by decide) ⟨"ls".data, ["-l".data], none, none⟩ (by decide)
  · exact c7_program_nonempty.2.1 "   ".data (by decide)
  · exact c7_program_nonempty.2.2.1 "< f".data (by decide)
  · exact c7_program_nonempty.2.2.2.1 "< f".data (by decide) (by decide)
  · exact c7_program_nonempty.2.2.2.2 "< f".data (by decide) (by decide) (by decide)

/-- Counterexample for C3 as stated: the line "< f | grep <" has a segment
ending with a dangling redirection operator, yet parsing it yields the bare
absent result `(none, [])` — identical to the result for empty input, hence
not a distinguishable parse error: the pipe loop aborts at the silently
failing first segment "< f" before the dangler is ever reached. -/
theorem c3_piped_dangler_can_be_silent :
    parse_input "< f | grep <".data = (none, []) ∧
    parse_input "< f | grep <".data = parse_input "".data := by
  refine ⟨by decide, by decide⟩

/-- C3 (amended): a segment whose token walk reaches a redirection operator
with no following token always parses to no command plus the corresponding
syntax-error message — distinguishable from the silent result of an empty
segment; every pipe-free line with such a dangling operator does the same at
line level, distinguishable from the absent result of empty input; and every
line one of whose pipe segments dangles yields no command and no pipeline at
all (though the message can be lost when an earlier segment of a piped line
already failed silently). -/
theorem c3_dangling_redirect_is_error :
    (∀ s : List Char, danglingTokens (tokenize s) = true →
       ∃ msg, parse_redir_command s = (none, [msg]) ∧
         (msg = err_no_input_msg ∨ msg = err_no_output_msg) ∧
         parse_redir_command s ≠ parse_redir_command []) ∧
    (∀ s : List Char, '|' ∉ s → danglingTokens (tokenize s) = true →
       ∃ msg, parse_input s = (none, [msg]) ∧
         (msg = err_no_input_msg ∨ msg = err_no_output_msg) ∧
         parse_input s ≠ parse_input "".data) ∧
    (∀ s : List Char,
       (∃ seg ∈ pipeline_segments s, danglingTokens (tokenize seg) = true) →
       (parse_input s).1 = none) := by
  refine ⟨?_, ?_, ?_⟩
  · intro s hd
    obtain ⟨msg, hp, hm⟩ := parse_redir_command_dangling hd
    refine ⟨msg, hp, hm, ?_⟩
    rw [hp, show parse_redir_command ([] : List Char) = (none, []) from by decide]
    simp
  · intro s hpipe hd
    have hne : tokenize s ≠ [] := by
      intro h0
      rw [h0] at hd
      simp [danglingTokens] at hd
    have hd2 : danglingTokens (tokenize (trim (trim s))) = true := by
      rw [tokenize_trim, tokenize_trim]
      exact hd
    obtain ⟨msg, hp, hm⟩ := parse_redir_command_dangling hd2
    have hline := single_seg_none [msg] hpipe hne hp
    refine ⟨msg, hline, hm, ?_⟩
    rw [hline, show parse_input ("".data) = (none, []) from by decide]
    simp
  · intro s hex
    by_cases h0 : trim s = []
    · simp [parse_input, h0]
    · rcases hq : pipeline_segments s with _ | ⟨seg, rest⟩
      · rw [hq] at hex
        rcases hex with ⟨seg', hmem, _⟩
        cases hmem
      · have hq' : ((splitP (fun c => c = '|') (trim s)).map trim).filter
            (fun x => !x.isEmpty) = seg :: rest := hq
        rw [hq] at hex
        rcases rest with _ | ⟨seg2, rest2⟩
        · rcases hex with ⟨seg', hmem, hdsg⟩
          have hseq : seg' = seg := by
            rcases List.mem_cons.mp hmem with h | h
            · exact h
            · cases h
          rw [hseq] at hdsg
          obtain ⟨msg, hp, _⟩ := parse_redir_command_dangling hdsg
          simp only [parse_input, if_neg h0]
          rw [hq']
          simp [hp]
        · have hnone := parsePipeSegs_dangling (seg :: seg2 :: rest2) hex
          rcases hps : parsePipeSegs (seg :: seg2 :: rest2) with ⟨ocs, m2⟩
          rw [hps] at hnone
          rcases ocs with _ | cs
          · simp only [parse_input, if_neg h0]
            rw [hq']
            simp [hps]
          · simp at hnone

/-- Witness for C3: the pipe-free line "grep >", whose segment ends in a
dangling output redirection, parses to no command plus a syntax-error
message, distinguishable from the result for empty input. -/
theorem c3_witness :
    ∃ msg, parse_input "grep >".data = (none, [msg]) ∧
      (msg = err_no_input_msg ∨ msg = err_no_output_msg) ∧
      parse_input "grep >".data ≠ parse_input "".data :=
  c3_dangling_redirect_is_error.2.1 "grep >".data (by decide) (by decide)

/-- Helper: on a segment whose tokens contain no redirection operator, the
segment parser yields the first token as program and the remaining tokens as
arguments, in order, with no redirection and no message. -/
theorem parse_redir_command_no_ops (s : List Char) (t : List Char)
    (ts : List (List Char)) (htok : tokenize s = t :: ts)
    (hlt : ['<'] ∉ tokenize s) (hgt : ['>'] ∉ tokenize s) :
    parse_redir_command s = (some ⟨t, ts, none, none⟩, []) := by
  have htr : tokenize (trim s) = t :: ts := by rw [tokenize_trim]; exact htok
  have hmem : t ∈ tokenize s := by rw [htok]; exact List.mem_cons_self t ts
  have ht1 : t ≠ ['<'] := fun he => hlt (he ▸ hmem)
  have ht2 : t ≠ ['>'] := fun he => hgt (he ▸ hmem)
  have htne : t ≠ [] := mem_tokenize_ne_nil hmem
  have hts : ∀ x ∈ ts, x ≠ ['<'] ∧ x ≠ ['>'] := by
    intro x hx
    have hmx : x ∈ tokenize s := by rw [htok]; exact List.mem_cons_of_mem t hx
    exact ⟨fun he => hlt (he ▸ hmx), fun he => hgt (he ▸ hmx)⟩
  have hwalk := walkTokens_no_ops ts t [] none none htne hts
  simp only [parse_redir_command, htr]
  rw [if_neg (by simp)]
  rw [walkTokens.eq_def]
  simp [ht1, ht2, hwalk]

/-- C4: on every input line that has at least one token, contains no pipe
character, and has no redirection-operator token, `parse_input` yields a
single command whose program is the first token, whose arguments are the
remaining tokens in order, and whose redirections are absent. -/
theorem c4_plain_line_single_command (s : List Char) (t : List Char)
    (ts : List (List Char)) (hpipe : '|' ∉ s) (htok : tokenize s = t :: ts)
    (hlt : ['<'] ∉ tokenize s) (hgt : ['>'] ∉ tokenize s) :
    parse_input s = (some (InputType.SingleCommand ⟨t, ts, none, none⟩), []) := by
  have htrim_ne : trim s ≠ [] := by
    intro h
    have h2 := trim_nil_tokenize h
    rw [htok] at h2
    cases h2
  have hsp : splitP (fun c => c = '|') (trim s) = [trim s] :=
    splitP_no_sep (trim s) (fun c hc => by
      simp only [decide_eq_false_iff_not]
      exact fun he => hpipe (he ▸ mem_trim hc))
  have h2 : trim (trim s) ≠ [] := by
    intro h
    have h3 := trim_nil_tokenize h
    rw [tokenize_trim, htok] at h3
    cases h3
  have hpr : parse_redir_command (trim (trim s)) = (some ⟨t, ts, none, none⟩, []) := by
    apply parse_redir_command_no_ops
    · rw [tokenize_trim, tokenize_trim]; exact htok
    · rw [tokenize_trim, tokenize_trim]; exact hlt
    · rw [tokenize_trim, tokenize_trim]; exact hgt
  have hfil : ((splitP (fun c => c = '|') (trim s)).map trim).filter
      (fun x => !x.isEmpty) = [trim (trim s)] := by
    rw [hsp]
    simp [List.filter_cons, List.isEmpty_iff, h2]
  simp only [parse_input, if_neg htrim_ne]
  rw [hfil]
  simp [hpr]

/-- Witness for C4: the line "echo a b" parses to the single command echo
with arguments a and b, in order, and no redirection. -/
theorem c4_witness :
    parse_input "echo a b".data =
      (some (InputType.SingleCommand
        ⟨"echo".data, ["a".data, "b".data], none, none⟩), []) := by
  exact c4_plain_line_single_command "echo a b".data "echo".data
    ["a".data, "b".data] (by decide) (by decide) (by decide) (by decide)

/-- C9: every input line whose trimmed text begins with the two characters
"cd" — whatever follows them — is dispatched to the cd built-in, never
reaching the pipeline parser, and the target directory is the second
whitespace token of the line, defaulting to "/" when there is none. -/
theorem c9_cd_prefix_dispatch (line : List Char)
    (h : List.isPrefixOf "cd".data (trim line) = true) :
    main_dispatch line =
      Action.cdBuiltin (((tokenize (trim line)).get? 1).getD "/".data) := by
  obtain ⟨rest, hrest⟩ := List.isPrefixOf_iff_prefix.mp h
  have hne : trim line ≠ "exit".data := by
    intro he
    rw [he] at hrest
    have : ('c' :: 'd' :: rest : List Char) = 'e' :: 'x' :: 'i' :: 't' :: [] := hrest
    simp at this
  simp [main_dispatch, hne, h]

/-- Witness for C9: the line "cdecho x", whose first token is not the word
cd, is nevertheless dispatched to the cd built-in with target "x". -/
theorem c9_witness_cdecho :
    main_dispatch "cdecho x".data = Action.cdBuiltin "x".data := by
  have h := c9_cd_prefix_dispatch "cdecho x".data (by decide)
  rw [h]
  decide

end OhMyShell
